import Mathlib

/-!
Verification of the core layout engine of the `tree-scaper` repository
(`src/tree_scaper/tree_visualizer.py`), shallowly embedded in Lean 4.

The embedding mirrors the Python source:
  * `measureNode`        — `TreeVisualizer._measure_node`
  * `measureTree`        — `TreeVisualizer._measure_tree`
  * `applyVstackAlignment` — `TreeVisualizer._apply_vstack_alignment`
  * `assignPositions`    — `TreeVisualizer._assign_positions`
  * `updateTreeLayout`   — `TreeVisualizer._update_tree_layout`

Pixel sizes are natural numbers (pygame surface sizes and config values are
ints); screen coordinates are integers.  Python's floor division `// 2` on
nonnegative operands is `Nat` division `/ 2`.  The external text-measurement
service (pygame font rendering: `font.render(line).get_width/get_height`) is
abstracted as a function `tm : String → Nat × Nat` giving each rendered
line's pixel (width, height).
-/

namespace TreeScaper

/-- Layout-relevant configuration of `TreeVisualizer`, after the
zoom-dependent recomputation (`_recompute_zoom_dependent_state`):
`v_stack_leafs`, `align_v_stack`, `horizontal_spacing`, `vertical_spacing`,
`node_margin_x`, `node_margin_y`. -/
structure LayoutConfig where
  vStackLeafs : Bool
  alignVStack : Bool
  horizontalSpacing : Nat
  verticalSpacing : Nat
  nodeMarginX : Nat
  nodeMarginY : Nat
  deriving Repr, DecidableEq

/-- Input tree node (`{"title": ..., "subtitle": ..., "branches": [...]}`)
with both required text keys present. -/
inductive TNode where
  | mk : String → String → List TNode → TNode
  deriving Repr

def TNode.title : TNode → String
  | .mk t _ _ => t

def TNode.subtitle : TNode → String
  | .mk _ s _ => s

def TNode.branches : TNode → List TNode
  | .mk _ _ br => br

/-- The `_measured` dictionary attached to every measured node, together
with the node's text fields (`width`, `height`, `top_height`,
`bottom_height`, `subtree_width`, `subtree_height`, `position`,
`leaves_only`). -/
structure MInfo where
  title : String
  subtitle : String
  width : Nat
  height : Nat
  topHeight : Nat
  bottomHeight : Nat
  subtreeWidth : Nat
  subtreeHeight : Nat
  position : Option (Int × Int)
  leavesOnly : Bool
  deriving Repr, DecidableEq

/-- A measured tree: the node dictionaries produced by `_measure_tree`. -/
inductive MNode where
  | mk : MInfo → List MNode → MNode
  deriving Repr

instance : Inhabited MInfo :=
  ⟨{ title := "", subtitle := "", width := 0, height := 0, topHeight := 0,
     bottomHeight := 0, subtreeWidth := 0, subtreeHeight := 0,
     position := none, leavesOnly := false }⟩

instance : Inhabited MNode := ⟨MNode.mk default []⟩

def MNode.info : MNode → MInfo
  | .mk i _ => i

def MNode.branches : MNode → List MNode
  | .mk _ br => br

/-- Python `max(list)` over a list of naturals (the lists the source applies
it to are nonempty, where this agrees with the built-in `max`). -/
def maxNat (l : List Nat) : Nat := l.foldl max 0

/-- Splitting a character list at every newline character, the semantics of
Python `str.split("\n")`: the empty string yields one empty line, a
trailing newline yields a trailing empty line, no line is ever dropped. -/
def splitNewlinesAux : List Char → List (List Char)
  | [] => [[]]
  | c :: cs =>
    match splitNewlinesAux cs with
    | [] => [[c]]
    | l :: ls => if c = '\n' then [] :: l :: ls else (c :: l) :: ls

/-- Python `text.split("\n")` on a string. -/
def splitLines (s : String) : List String :=
  (splitNewlinesAux s.data).map (fun l => String.mk l)

/-- `TreeVisualizer._measure_node`: split title and subtitle on newlines,
measure every rendered line, take the maximal line width plus twice the
horizontal margin, and sum the line heights of each block plus twice the
vertical margin.  Returns `(width, height, top_height, bottom_height)`. -/
def measureNode (tm : String → Nat × Nat) (cfg : LayoutConfig)
    (title subtitle : String) : Nat × Nat × Nat × Nat :=
  let titleLines := splitLines title
  let subtitleLines := splitLines subtitle
  let topSurfs := titleLines.map tm
  let bottomSurfs := subtitleLines.map tm
  let textWidths := (topSurfs ++ bottomSurfs).map (fun p => p.1)
  let width := maxNat textWidths + cfg.nodeMarginX * 2
  let topHeight := (topSurfs.map (fun p => p.2)).sum + cfg.nodeMarginY * 2
  let bottomHeight := (bottomSurfs.map (fun p => p.2)).sum + cfg.nodeMarginY * 2
  let height := topHeight + bottomHeight
  (width, height, topHeight, bottomHeight)

/-- The non-recursive core of `_measure_tree`: given the node's own
measurements and its already-measured branches, decide `leaves_only` and
compute `subtree_width` / `subtree_height` exactly as lines 289–352 of the
source do. -/
def combineMeasured (cfg : LayoutConfig) (title subtitle : String)
    (own : Nat × Nat × Nat × Nat) (mbranches : List MNode) : MNode :=
  let nodeWidth := own.1
  let nodeHeight := own.2.1
  let topHeight := own.2.2.1
  let bottomHeight := own.2.2.2
  let leavesOnly :=
    if mbranches.isEmpty then false
    else cfg.vStackLeafs && mbranches.all (fun c => c.branches.isEmpty)
  let sizes : Nat × Nat :=
    if !mbranches.isEmpty && !leavesOnly then
      let totalWidth :=
        (mbranches.map (fun c => c.info.subtreeWidth)).sum
          + cfg.horizontalSpacing * (mbranches.length - 1)
      let totalWidth := max totalWidth nodeWidth
      let totalHeight :=
        nodeHeight + cfg.verticalSpacing
          + maxNat (mbranches.map (fun c => c.info.subtreeHeight))
      (totalWidth, totalHeight)
    else if !mbranches.isEmpty && leavesOnly then
      let maxChildWidth := maxNat (mbranches.map (fun c => c.info.width))
      let totalWidth := max nodeWidth maxChildWidth
      let childrenHeight :=
        (mbranches.map (fun c => c.info.height)).sum
          + cfg.verticalSpacing * (mbranches.length - 1)
      let totalHeight := nodeHeight + cfg.verticalSpacing + childrenHeight
      (totalWidth, totalHeight)
    else
      (nodeWidth, nodeHeight)
  MNode.mk
    { title := title
      subtitle := subtitle
      width := nodeWidth
      height := nodeHeight
      topHeight := topHeight
      bottomHeight := bottomHeight
      subtreeWidth := sizes.1
      subtreeHeight := sizes.2
      position := none
      leavesOnly := leavesOnly }
    mbranches

mutual

/-- `TreeVisualizer._measure_tree`: post-order traversal producing a
measured tree. -/
def measureTree (tm : String → Nat × Nat) (cfg : LayoutConfig) :
    TNode → MNode
  | .mk title subtitle br =>
    combineMeasured cfg title subtitle (measureNode tm cfg title subtitle)
      (measureForest tm cfg br)
termination_by structural t => t

/-- Measurement of a list of sibling branches, in order. -/
def measureForest (tm : String → Nat × Nat) (cfg : LayoutConfig) :
    List TNode → List MNode
  | [] => []
  | c :: cs => measureTree tm cfg c :: measureForest tm cfg cs
termination_by structural l => l

end

/-- The target width of a vertical leaf stack: the maximum of the parent's
current width and its children's current widths (lines 381–382 of the
source). -/
def stackTarget (cfg : LayoutConfig) (i : MInfo) (br2 : List MNode) : Nat :=
  max i.width (maxNat (br2.map (fun c => c.info.width)))

/-- The per-child overwrite of the stack-alignment loop (lines 386–389 of
the source): the child's `width` and `subtree_width` become the target
width, its `subtree_height` its own height. -/
def overwriteStackChild (w : Nat) (c : MNode) : MNode :=
  .mk
    { c.info with
      width := w
      subtreeWidth := w
      subtreeHeight := c.info.height }
    c.branches

mutual

/-- `TreeVisualizer._apply_vstack_alignment`: post-order width-equalisation
for vertical leaf stacks, recomputing `subtree_width`/`subtree_height`
bottom-up (lines 354–412 of the source). -/
def applyVstackAlignment (cfg : LayoutConfig) : MNode → MNode
  | .mk i br =>
    let br2 := alignForest cfg br
    if br2.isEmpty then
      .mk { i with subtreeWidth := i.width, subtreeHeight := i.height } br2
    else if i.leavesOnly && cfg.alignVStack then
      let targetWidth := stackTarget cfg i br2
      let br3 := br2.map (overwriteStackChild targetWidth)
      let childrenHeight :=
        (br3.map (fun c => c.info.height)).sum
          + cfg.verticalSpacing * (br3.length - 1)
      .mk
        { i with
          width := targetWidth
          subtreeWidth := targetWidth
          subtreeHeight := i.height + cfg.verticalSpacing + childrenHeight }
        br3
    else
      let totalWidth :=
        (br2.map (fun c => c.info.subtreeWidth)).sum
          + cfg.horizontalSpacing * (br2.length - 1)
      .mk
        { i with
          subtreeWidth := max i.width totalWidth
          subtreeHeight := i.height + cfg.verticalSpacing
            + maxNat (br2.map (fun c => c.info.subtreeHeight)) }
        br2
termination_by structural m => m

/-- The children loop at the top of `_apply_vstack_alignment`. -/
def alignForest (cfg : LayoutConfig) : List MNode → List MNode
  | [] => []
  | c :: cs => applyVstackAlignment cfg c :: alignForest cfg cs
termination_by structural l => l

end

/-- Integer value of the floor half of a pixel size: Python `size // 2` on a
nonnegative int, used wherever the source centers a box. -/
def half (n : Nat) : Int := ((n / 2 : Nat) : Int)

mutual

/-- `TreeVisualizer._assign_positions`: pre-order assignment of center
coordinates (lines 414–490 of the source). -/
def assignPositions (cfg : LayoutConfig) : MNode → Int × Int → MNode
  | .mk i br, pos =>
    let i2 := { i with position := some pos }
    if br.isEmpty then .mk i2 br
    else if i.leavesOnly then
      let parentBottom := pos.2 + half i.height
      let yCursor := parentBottom + (cfg.verticalSpacing : Int)
      .mk i2 (assignStack cfg br pos.1 yCursor)
    else
      let totalWidth :=
        (br.map (fun c => c.info.subtreeWidth)).sum
          + cfg.horizontalSpacing * (br.length - 1)
      let xStart := pos.1 - half totalWidth
      .mk i2 (assignRow cfg br xStart pos.2 i.height)
termination_by structural m => m

/-- The row-mode children loop of `_assign_positions`: walk the children
left to right from `currentX`, placing each child's center at
`currentX + subtree_width Π 2` horizontally and at
`parentY + parentHeight Π 2 + vertical_spacing + height Π 2` vertically
(`Π` denoting floor division), then advance by
`subtree_width + horizontal_spacing`. -/
def assignRow (cfg : LayoutConfig) :
    List MNode → Int → Int → Nat → List MNode
  | [], _, _, _ => []
  | c :: cs, currentX, parentY, parentHeight =>
    let cx := currentX + half c.info.subtreeWidth
    let cy := parentY + half parentHeight + (cfg.verticalSpacing : Int)
      + half c.info.height
    assignPositions cfg c (cx, cy) ::
      assignRow cfg cs
        (currentX + (c.info.subtreeWidth : Int) + (cfg.horizontalSpacing : Int))
        parentY parentHeight
termination_by structural l => l

/-- The stack-mode children loop of `_assign_positions`: children share the
parent's x; `yCursor` starts at the parent's bottom edge plus the vertical
spacing and advances past each child's box plus the vertical spacing. -/
def assignStack (cfg : LayoutConfig) :
    List MNode → Int → Int → List MNode
  | [], _, _ => []
  | c :: cs, x, yCursor =>
    let cy := yCursor + half c.info.height
    assignPositions cfg c (x, cy) ::
      assignStack cfg cs x (cy + half c.info.height + (cfg.verticalSpacing : Int))
termination_by structural l => l

end

mutual

/-- Every node of a measured tree: the node itself followed by all nodes of
its branches, in depth-first order. -/
def nodesOf : MNode → List MNode
  | .mk i br => .mk i br :: nodesOfForest br
termination_by structural m => m

def nodesOfForest : List MNode → List MNode
  | [] => []
  | c :: cs => nodesOf c ++ nodesOfForest cs
termination_by structural l => l

end

mutual

/-- Corresponding node pairs of two trees of identical shape, walked
simultaneously: used to relate a tree before and after an in-place pass. -/
def pairedNodes : MNode → MNode → List (MNode × MNode)
  | .mk i br, .mk j cr => (MNode.mk i br, MNode.mk j cr) :: pairedForest br cr
termination_by structural m => m

def pairedForest : List MNode → List MNode → List (MNode × MNode)
  | [], _ => []
  | _ :: _, [] => []
  | a :: as, b :: bs => pairedNodes a b ++ pairedForest as bs
termination_by structural l => l

end

/-- Raw input node as loaded from JSON: either required text key may be
absent (Python `node_data["title"]` / `node_data["subtitle"]` raise
`KeyError` when missing). -/
inductive RawNode where
  | mk : Option String → Option String → List RawNode → RawNode
  deriving Repr

mutual

/-- A raw node, or one of its descendants, is missing a required
`title`/`subtitle` key. -/
def hasMissingKey : RawNode → Bool
  | .mk t s br => t.isNone || s.isNone || forestHasMissingKey br
termination_by structural r => r

def forestHasMissingKey : List RawNode → Bool
  | [] => false
  | c :: cs => hasMissingKey c || forestHasMissingKey cs
termination_by structural l => l

end

mutual

/-- `_measure_tree` on raw input, with Python `KeyError` propagation made
explicit: `node_data["title"]` is read first, then `node_data["subtitle"]`
(both inside `_measure_node`), then the branches are measured recursively;
the first failure aborts the whole pass with no partial result. -/
def measureTreeE (tm : String → Nat × Nat) (cfg : LayoutConfig) :
    RawNode → Except String MNode
  | .mk none _ _ => .error "KeyError: title"
  | .mk (some _) none _ => .error "KeyError: subtitle"
  | .mk (some t) (some s) br =>
    match measureForestE tm cfg br with
    | .error e => .error e
    | .ok mbr => .ok (combineMeasured cfg t s (measureNode tm cfg t s) mbr)
termination_by structural r => r

def measureForestE (tm : String → Nat × Nat) (cfg : LayoutConfig) :
    List RawNode → Except String (List MNode)
  | [] => .ok []
  | c :: cs =>
    match measureTreeE tm cfg c with
    | .error e => .error e
    | .ok m =>
      match measureForestE tm cfg cs with
      | .error e => .error e
      | .ok ms => .ok (m :: ms)
termination_by structural l => l

end

/-- The visualizer state that `_update_tree_layout` reads and writes: the
raw input tree, the cached measured tree of the previous pass (absent
before the first pass), and the root center position. -/
structure VisState where
  tree : RawNode
  measuredTree : Option MNode
  rootPos : Int × Int

/-- `TreeVisualizer._update_tree_layout`: measure, optionally align, assign
positions, and store the result in `measured_tree`.  A `KeyError` raised
during measurement propagates before any field assignment happens. -/
def updateTreeLayout (tm : String → Nat × Nat) (cfg : LayoutConfig)
    (st : VisState) : Except String VisState :=
  match measureTreeE tm cfg st.tree with
  | .error e => .error e
  | .ok m =>
    let m2 := if cfg.vStackLeafs && cfg.alignVStack
      then applyVstackAlignment cfg m else m
    let m3 := assignPositions cfg m2 st.rootPos
    .ok { st with measuredTree := some m3 }

/-- The caller-visible effect of one layout pass on the visualizer object:
on success the new state, on a raised exception the object is observed
unchanged (the exception propagates before `self.measured_tree` is
assigned). -/
def runUpdate (tm : String → Nat × Nat) (cfg : LayoutConfig)
    (st : VisState) : VisState :=
  match updateTreeLayout tm cfg st with
  | .ok st2 => st2
  | .error _ => st

/-- First branch of a measured node (used to state the 3-level-chain
scenario without comparing whole trees). -/
def child0 (m : MNode) : MNode := m.branches.headI

/-- x coordinate of an assigned node position (0 when unassigned). -/
def posX (m : MNode) : Int := (m.info.position.map Prod.fst).getD 0

/-- y coordinate of an assigned node position (0 when unassigned). -/
def posY (m : MNode) : Int := (m.info.position.map Prod.snd).getD 0

/-- The structural invariant `_measure_tree` guarantees by construction:
whenever a node is marked `leaves_only`, all of its direct children are
leaves. -/
def StackConsistent (M : MNode) : Prop :=
  ∀ r ∈ nodesOf M, r.info.leavesOnly = true → ∀ c ∈ r.branches, c.branches = []

/-- The width of the horizontal band a row-mode parent reserves for its
children: `sum(child.subtree_width) + horizontal_spacing * (n - 1)`
(lines 469–471 of the source). -/
def bandWidth (cfg : LayoutConfig) (l : List MNode) : Nat :=
  (l.map (fun c => c.info.subtreeWidth)).sum
    + cfg.horizontalSpacing * (l.length - 1)

/-- The accumulated x-offset of the `i`-th row-mode child from the left
edge of the band: each earlier child advances the cursor by its
`subtree_width` plus the horizontal spacing. -/
def rowShift (cfg : LayoutConfig) (l : List MNode) (i : Nat) : Nat :=
  ((l.take i).map (fun c => c.info.subtreeWidth)).sum
    + cfg.horizontalSpacing * i

/-- The accumulated y-offset of the `i`-th stack-mode child from the
initial stack cursor: each earlier child advances the cursor by twice the
floor half of its own height plus the vertical spacing (the source
advances `y_cursor` to `child_center_y + child_height // 2 +
vertical_spacing`). -/
def stackShift (cfg : LayoutConfig) (l : List MNode) (i : Nat) : Int :=
  ((l.take i).map
    (fun c => 2 * half c.info.height + (cfg.verticalSpacing : Int))).sum

/-- The size invariants of §3 of the spec: a node's subtree footprint
contains its own box, with equality at leaves. -/
def SizeBounds (m : MNode) : Prop :=
  m.info.width ≤ m.info.subtreeWidth
  ∧ m.info.height ≤ m.info.subtreeHeight
  ∧ (m.branches = [] →
      m.info.subtreeWidth = m.info.width
      ∧ m.info.subtreeHeight = m.info.height)

/-- Modelled from the spec: the earlier ("simpler layout mode") Node
Measurer variant, which floors the node width at a configured
`minNodeWidth`.  No such floor, nor any `minNodeWidth`/`min_node_width`
configuration key, exists anywhere in this snapshot's source; this
definition follows the spec's words and is compared against the code's
`measureNode`. -/
def measureNodeFloored (tm : String → Nat × Nat) (cfg : LayoutConfig)
    (minNodeWidth : Nat) (title subtitle : String) : Nat × Nat × Nat × Nat :=
  let m := measureNode tm cfg title subtitle
  (max minNodeWidth m.1, m.2.1, m.2.2.1, m.2.2.2)

/-! ### Concrete inputs used by the witness theorems -/

/-- A concrete text-metrics function: a rendered line is as wide as its
character count and one pixel taller. -/
def tmW : String → Nat × Nat := fun s => (s.length, s.length + 1)

/-- Concrete row-layout configuration (`v_stack_leafs` off). -/
def cfgRow : LayoutConfig :=
  { vStackLeafs := false, alignVStack := false, horizontalSpacing := 4,
    verticalSpacing := 5, nodeMarginX := 1, nodeMarginY := 1 }

/-- Concrete stack-layout configuration (`v_stack_leafs` and
`align_v_stack` on). -/
def cfgStack : LayoutConfig :=
  { vStackLeafs := true, alignVStack := true, horizontalSpacing := 4,
    verticalSpacing := 5, nodeMarginX := 1, nodeMarginY := 1 }

/-- A root with two leaf children. -/
def tTwo : TNode := .mk "aa" "b" [.mk "c" "d" [], .mk "eee" "f" []]

/-- A three-level single-child chain whose middle node has odd own height
(title "a", subtitle "bb" measure to line heights 2 and 3, so its height is
(2+2)+(3+2) = 9). -/
def tChain : TNode := .mk "r" "r" [.mk "a" "bb" [.mk "l" "l" []]]

/-- The measured two-child tree under the row configuration. -/
def mTwoRow : MNode := measureTree tmW cfgRow tTwo

/-- The measured two-child tree under the stack configuration. -/
def mTwoStack : MNode := measureTree tmW cfgStack tTwo

/-- The positioned row tree, root centered at the origin. -/
def pTwoRow : MNode := assignPositions cfgRow mTwoRow (0, 0)

/-- The positioned stack tree, root centered at the origin. -/
def pTwoStack : MNode :=
  assignPositions cfgStack (applyVstackAlignment cfgStack mTwoStack) (0, 0)

/-- The positioned three-level chain, row mode throughout. -/
def pChain : MNode :=
  assignPositions cfgRow (measureTree tmW cfgRow tChain) (0, 0)

/-- A raw input state whose root is missing the `subtitle` key. -/
def stBad : VisState :=
  { tree := .mk (some "t") none [], measuredTree := none, rootPos := (0, 0) }

/-! ### Basic structural lemmas -/

theorem measureForest_eq_map (tm : String → Nat × Nat) (cfg : LayoutConfig)
    (l : List TNode) :
    measureForest tm cfg l = l.map (measureTree tm cfg) := by
  induction l with
  | nil => rfl
  | cons c cs ih => simp [measureForest, ih]

theorem alignForest_eq_map (cfg : LayoutConfig) (l : List MNode) :
    alignForest cfg l = l.map (applyVstackAlignment cfg) := by
  induction l with
  | nil => rfl
  | cons c cs ih => simp [alignForest, ih]

theorem tnodeInductionOn {P : TNode → Prop}
    (h : ∀ a b br, (∀ c ∈ br, P c) → P (TNode.mk a b br)) : ∀ n, P n
  | .mk a b br => h a b br (fun c hc => tnodeInductionOn h c)
termination_by n => sizeOf n
decreasing_by
  simp only [TNode.mk.sizeOf_spec]
  have := List.sizeOf_lt_of_mem hc
  omega

theorem mnodeInductionOn {P : MNode → Prop}
    (h : ∀ i br, (∀ c ∈ br, P c) → P (MNode.mk i br)) : ∀ n, P n
  | .mk i br => h i br (fun c hc => mnodeInductionOn h c)
termination_by n => sizeOf n
decreasing_by
  simp only [MNode.mk.sizeOf_spec]
  have := List.sizeOf_lt_of_mem hc
  omega

theorem rawInductionOn {P : RawNode → Prop}
    (h : ∀ a b br, (∀ c ∈ br, P c) → P (RawNode.mk a b br)) : ∀ n, P n
  | .mk a b br => h a b br (fun c hc => rawInductionOn h c)
termination_by n => sizeOf n
decreasing_by
  simp only [RawNode.mk.sizeOf_spec]
  have := List.sizeOf_lt_of_mem hc
  omega

theorem mem_nodesOfForest {m : MNode} {l : List MNode} :
    m ∈ nodesOfForest l ↔ ∃ c ∈ l, m ∈ nodesOf c := by
  induction l with
  | nil => simp [nodesOfForest]
  | cons c cs ih => simp [nodesOfForest, ih]

theorem mem_nodesOf {m : MNode} {i : MInfo} {br : List MNode} :
    m ∈ nodesOf (.mk i br) ↔ m = .mk i br ∨ ∃ c ∈ br, m ∈ nodesOf c := by
  simp [nodesOf, mem_nodesOfForest]

/-! ### The Subtree Measurer -/

theorem measureTree_mk (tm : String → Nat × Nat) (cfg : LayoutConfig)
    (a b : String) (br : List TNode) :
    measureTree tm cfg (.mk a b br)
      = combineMeasured cfg a b (measureNode tm cfg a b)
          (br.map (measureTree tm cfg)) := by
  rw [← measureForest_eq_map]
  rfl

theorem combineMeasured_eq_mk (cfg : LayoutConfig) (a b : String)
    (own : Nat × Nat × Nat × Nat) (mbr : List MNode) :
    combineMeasured cfg a b own mbr
      = MNode.mk (combineMeasured cfg a b own mbr).info mbr := rfl

theorem combineMeasured_branches (cfg : LayoutConfig) (a b : String)
    (own : Nat × Nat × Nat × Nat) (mbr : List MNode) :
    (combineMeasured cfg a b own mbr).branches = mbr := rfl

theorem combineMeasured_width (cfg : LayoutConfig) (a b : String)
    (own : Nat × Nat × Nat × Nat) (mbr : List MNode) :
    (combineMeasured cfg a b own mbr).info.width = own.1 := rfl

theorem combineMeasured_height (cfg : LayoutConfig) (a b : String)
    (own : Nat × Nat × Nat × Nat) (mbr : List MNode) :
    (combineMeasured cfg a b own mbr).info.height = own.2.1 := rfl

theorem combineMeasured_leavesOnly (cfg : LayoutConfig) (a b : String)
    (own : Nat × Nat × Nat × Nat) (mbr : List MNode) :
    (combineMeasured cfg a b own mbr).info.leavesOnly
      = if mbr.isEmpty then false
        else cfg.vStackLeafs && mbr.all (fun c => c.branches.isEmpty) := rfl

theorem combineMeasured_row {cfg : LayoutConfig} {a b : String}
    {own : Nat × Nat × Nat × Nat} {mbr : List MNode}
    (h1 : mbr ≠ [])
    (h2 : (combineMeasured cfg a b own mbr).info.leavesOnly = false) :
    (combineMeasured cfg a b own mbr).info.subtreeWidth
      = max ((mbr.map (fun c => c.info.subtreeWidth)).sum
          + cfg.horizontalSpacing * (mbr.length - 1)) own.1
    ∧ (combineMeasured cfg a b own mbr).info.subtreeHeight
      = own.2.1 + cfg.verticalSpacing
        + maxNat (mbr.map (fun c => c.info.subtreeHeight)) := by
  have hne : mbr.isEmpty = false := by
    simp [List.isEmpty_iff]
    exact h1
  rw [combineMeasured_leavesOnly, hne] at h2
  simp only [Bool.false_eq_true, if_false] at h2
  simp only [combineMeasured, MNode.info, hne, h2]
  simp

theorem combineMeasured_stack {cfg : LayoutConfig} {a b : String}
    {own : Nat × Nat × Nat × Nat} {mbr : List MNode}
    (h2 : (combineMeasured cfg a b own mbr).info.leavesOnly = true) :
    (combineMeasured cfg a b own mbr).info.subtreeWidth
      = max own.1 (maxNat (mbr.map (fun c => c.info.width)))
    ∧ (combineMeasured cfg a b own mbr).info.subtreeHeight
      = own.2.1 + cfg.verticalSpacing
        + ((mbr.map (fun c => c.info.height)).sum
            + cfg.verticalSpacing * (mbr.length - 1)) := by
  have hne : mbr.isEmpty = false := by
    rw [combineMeasured_leavesOnly] at h2
    by_contra hc
    simp at hc
    simp [hc] at h2
  rw [combineMeasured_leavesOnly, hne] at h2
  simp only [Bool.false_eq_true, if_false] at h2
  simp only [combineMeasured, MNode.info, hne, h2]
  simp

theorem combineMeasured_leaf {cfg : LayoutConfig} {a b : String}
    {own : Nat × Nat × Nat × Nat} {mbr : List MNode}
    (h1 : mbr = []) :
    (combineMeasured cfg a b own mbr).info.subtreeWidth = own.1
    ∧ (combineMeasured cfg a b own mbr).info.subtreeHeight = own.2.1 := by
  subst h1
  simp [combineMeasured, MNode.info]

/-- Every node of a tree produced by `_measure_tree` is itself the
measurement of some input subtree. -/
theorem mem_measure_exists (tm : String → Nat × Nat) (cfg : LayoutConfig) :
    ∀ t m, m ∈ nodesOf (measureTree tm cfg t) →
      ∃ t2, m = measureTree tm cfg t2 := by
  intro t
  induction t using tnodeInductionOn with
  | h a b br ih =>
    intro m hm
    rw [measureTree_mk, combineMeasured_eq_mk] at hm
    rcases mem_nodesOf.1 hm with h | ⟨c, hc, hmc⟩
    · refine ⟨.mk a b br, ?_⟩
      rw [h, measureTree_mk, combineMeasured_eq_mk]
      rfl
    · rcases List.mem_map.1 hc with ⟨c0, hc0, rfl⟩
      exact ih c0 hc0 m hmc

/-- C1: for every node of a measured tree with at least one child and
`leaves_only` false (row layout), `_measure_tree` computes
`subtree_width = max(own width, sum of the children's subtree widths +
horizontal_spacing * (child count - 1))` and `subtree_height = own height
+ vertical_spacing + max child subtree height`; a single child goes
through the same formulas, the spacing term contributing zero. -/
theorem measure_row_formulas (tm : String → Nat × Nat) (cfg : LayoutConfig)
    (t : TNode) (m : MNode) (hm : m ∈ nodesOf (measureTree tm cfg t))
    (hbr : m.branches ≠ []) (hlo : m.info.leavesOnly = false) :
    m.info.subtreeWidth = max m.info.width (bandWidth cfg m.branches)
    ∧ m.info.subtreeHeight = m.info.height + cfg.verticalSpacing
        + maxNat (m.branches.map (fun c => c.info.subtreeHeight)) := by
  obtain ⟨t2, rfl⟩ := mem_measure_exists tm cfg t m hm
  obtain ⟨a, b, br⟩ := t2
  rw [measureTree_mk] at hbr hlo ⊢
  rw [combineMeasured_branches] at hbr
  obtain ⟨hw, hh⟩ := combineMeasured_row hbr hlo
  rw [combineMeasured_branches, combineMeasured_width, combineMeasured_height,
    hw, hh, Nat.max_comm]
  exact ⟨rfl, rfl⟩

/-- C1 witness: the root of the measured two-child row tree. -/
theorem measure_row_formulas_witness :
    mTwoRow.branches ≠ [] ∧ mTwoRow.info.leavesOnly = false
    ∧ mTwoRow.info.subtreeWidth = 12
    ∧ (mTwoRow.info.subtreeWidth
          = max mTwoRow.info.width (bandWidth cfgRow mTwoRow.branches)
        ∧ mTwoRow.info.subtreeHeight
          = mTwoRow.info.height + cfgRow.verticalSpacing
              + maxNat (mTwoRow.branches.map (fun c => c.info.subtreeHeight))) :=
  ⟨List.length_pos.mp (by decide), by decide, by decide,
    measure_row_formulas tmW cfgRow tTwo mTwoRow (List.Mem.head _)
      (List.length_pos.mp (by decide)) (by decide)⟩

/-- C2: for every node of a measured tree, `leaves_only` is true iff
`v_stack_leafs` is enabled and every direct child is a leaf (one level of
lookahead); for such a stack node `subtree_width = max(own width, max
child own width)` and `subtree_height = own height + vertical_spacing +
(sum of the children's own heights + vertical_spacing * (child count -
1))`, using children's own sizes rather than subtree sizes; a node with
no children has `leaves_only` false. -/
theorem measure_stack_formulas (tm : String → Nat × Nat) (cfg : LayoutConfig)
    (t : TNode) (m : MNode) (hm : m ∈ nodesOf (measureTree tm cfg t)) :
    (m.branches ≠ [] →
      m.info.leavesOnly
        = (cfg.vStackLeafs && m.branches.all (fun c => c.branches.isEmpty)))
    ∧ (m.info.leavesOnly = true →
        m.info.subtreeWidth
          = max m.info.width (maxNat (m.branches.map (fun c => c.info.width)))
        ∧ m.info.subtreeHeight
          = m.info.height + cfg.verticalSpacing
              + ((m.branches.map (fun c => c.info.height)).sum
                  + cfg.verticalSpacing * (m.branches.length - 1)))
    ∧ (m.branches = [] → m.info.leavesOnly = false) := by
  obtain ⟨t2, rfl⟩ := mem_measure_exists tm cfg t m hm
  obtain ⟨a, b, br⟩ := t2
  rw [measureTree_mk]
  refine ⟨?_, ?_, ?_⟩
  · intro hbr
    rw [combineMeasured_branches] at hbr ⊢
    rw [combineMeasured_leavesOnly]
    have hne : (br.map (measureTree tm cfg)).isEmpty = false := by
      simp [List.isEmpty_iff]
      exact fun h => hbr (by simp [h])
    rw [hne]
    simp
  · intro hlo
    obtain ⟨hw, hh⟩ := combineMeasured_stack hlo
    rw [combineMeasured_branches, combineMeasured_width, combineMeasured_height,
      hw, hh]
    exact ⟨rfl, rfl⟩
  · intro hbr
    rw [combineMeasured_branches] at hbr
    rw [combineMeasured_leavesOnly, hbr]
    simp

/-- C2 witness: the root of the measured two-child stack tree. -/
theorem measure_stack_formulas_witness :
    mTwoStack.info.leavesOnly = true
    ∧ mTwoStack.info.subtreeWidth = 5 ∧ mTwoStack.info.subtreeHeight = 37
    ∧ ((mTwoStack.branches ≠ [] →
          mTwoStack.info.leavesOnly
            = (cfgStack.vStackLeafs
                && mTwoStack.branches.all (fun c => c.branches.isEmpty)))
        ∧ (mTwoStack.info.leavesOnly = true →
            mTwoStack.info.subtreeWidth
              = max mTwoStack.info.width
                  (maxNat (mTwoStack.branches.map (fun c => c.info.width)))
            ∧ mTwoStack.info.subtreeHeight
              = mTwoStack.info.height + cfgStack.verticalSpacing
                  + ((mTwoStack.branches.map (fun c => c.info.height)).sum
                      + cfgStack.verticalSpacing
                          * (mTwoStack.branches.length - 1)))
        ∧ (mTwoStack.branches = [] → mTwoStack.info.leavesOnly = false)) :=
  ⟨by decide, by decide, by decide,
    measure_stack_formulas tmW cfgStack tTwo mTwoStack (List.Mem.head _)⟩

/-! ### The Position Assigner -/

theorem self_mem_nodesOf (m : MNode) : m ∈ nodesOf m := by
  rcases m with ⟨i, br⟩
  exact mem_nodesOf.2 (Or.inl rfl)

theorem headI_eq_get (l : List MNode) (h : 0 < l.length) :
    l.headI = l.get ⟨0, h⟩ := by
  cases l with
  | nil => cases h
  | cons a as => rfl

theorem assignPositions_info (cfg : LayoutConfig) (m : MNode)
    (pos : Int × Int) :
    (assignPositions cfg m pos).info
      = { m.info with position := some pos } := by
  rcases m with ⟨i, br⟩
  simp only [assignPositions]
  split
  · rfl
  · split <;> rfl

theorem posX_assign (cfg : LayoutConfig) (m : MNode) (pos : Int × Int) :
    posX (assignPositions cfg m pos) = pos.1 := by
  simp [posX, assignPositions_info]

theorem posY_assign (cfg : LayoutConfig) (m : MNode) (pos : Int × Int) :
    posY (assignPositions cfg m pos) = pos.2 := by
  simp [posY, assignPositions_info]

theorem assign_mk_leaf (cfg : LayoutConfig) (i : MInfo) (pos : Int × Int) :
    assignPositions cfg (.mk i []) pos
      = .mk { i with position := some pos } [] := rfl

theorem assign_mk_stack (cfg : LayoutConfig) (i : MInfo) (br : List MNode)
    (pos : Int × Int) (hbr : br ≠ []) (hlo : i.leavesOnly = true) :
    assignPositions cfg (.mk i br) pos
      = .mk { i with position := some pos }
          (assignStack cfg br pos.1
            (pos.2 + half i.height + (cfg.verticalSpacing : Int))) := by
  have hne : br.isEmpty = false := by
    simp [List.isEmpty_iff]
    exact hbr
  simp only [assignPositions, hne, hlo]
  simp

theorem assign_mk_row (cfg : LayoutConfig) (i : MInfo) (br : List MNode)
    (pos : Int × Int) (hbr : br ≠ []) (hlo : i.leavesOnly = false) :
    assignPositions cfg (.mk i br) pos
      = .mk { i with position := some pos }
          (assignRow cfg br (pos.1 - half (bandWidth cfg br)) pos.2
            i.height) := by
  have hne : br.isEmpty = false := by
    simp [List.isEmpty_iff]
    exact hbr
  simp only [assignPositions, hne, hlo]
  simp [bandWidth]

theorem assignRow_length (cfg : LayoutConfig) :
    ∀ (l : List MNode) (cx py : Int) (ph : Nat),
      (assignRow cfg l cx py ph).length = l.length := by
  intro l
  induction l with
  | nil => intro cx py ph; rfl
  | cons c cs ih => intro cx py ph; simp [assignRow, ih]

theorem assignStack_length (cfg : LayoutConfig) :
    ∀ (l : List MNode) (x yc : Int),
      (assignStack cfg l x yc).length = l.length := by
  intro l
  induction l with
  | nil => intro x yc; rfl
  | cons c cs ih => intro x yc; simp [assignStack, ih]

theorem assignRow_get (cfg : LayoutConfig) :
    ∀ (l : List MNode) (cx py : Int) (ph : Nat) (i : Nat)
      (hi : i < l.length) (hi2 : i < (assignRow cfg l cx py ph).length),
      (assignRow cfg l cx py ph).get ⟨i, hi2⟩
        = assignPositions cfg (l.get ⟨i, hi⟩)
            (cx + (rowShift cfg l i : Int)
              + half (l.get ⟨i, hi⟩).info.subtreeWidth,
             py + half ph + (cfg.verticalSpacing : Int)
              + half (l.get ⟨i, hi⟩).info.height) := by
  intro l
  induction l with
  | nil => intro cx py ph i hi; cases hi
  | cons c cs ih =>
    intro cx py ph i hi hi2
    cases i with
    | zero =>
      simp only [assignRow, List.get]
      have hsh : rowShift cfg (c :: cs) 0 = 0 := by
        simp [rowShift]
      rw [hsh]
      norm_num
    | succ i =>
      have hi' : i < cs.length := Nat.lt_of_succ_lt_succ hi
      have hi2' :
          i < (assignRow cfg cs
            (cx + (c.info.subtreeWidth : Int) + (cfg.horizontalSpacing : Int))
            py ph).length := by
        rw [assignRow_length]
        exact hi'
      simp only [assignRow, List.get]
      rw [ih (cx + (c.info.subtreeWidth : Int) + (cfg.horizontalSpacing : Int))
        py ph i hi' hi2']
      have hsh : (rowShift cfg (c :: cs) (i + 1) : Int)
          = (c.info.subtreeWidth : Int) + (cfg.horizontalSpacing : Int)
            + (rowShift cfg cs i : Int) := by
        simp [rowShift, List.take_succ_cons]
        ring
      rw [hsh]
      ring_nf

theorem assignStack_get (cfg : LayoutConfig) :
    ∀ (l : List MNode) (x yc : Int) (i : Nat)
      (hi : i < l.length) (hi2 : i < (assignStack cfg l x yc).length),
      (assignStack cfg l x yc).get ⟨i, hi2⟩
        = assignPositions cfg (l.get ⟨i, hi⟩)
            (x, yc + stackShift cfg l i
              + half (l.get ⟨i, hi⟩).info.height) := by
  intro l
  induction l with
  | nil => intro x yc i hi; cases hi
  | cons c cs ih =>
    intro x yc i hi hi2
    cases i with
    | zero =>
      simp only [assignStack, List.get]
      have hsh : stackShift cfg (c :: cs) 0 = 0 := by
        simp [stackShift]
      rw [hsh]
      norm_num
    | succ i =>
      have hi' : i < cs.length := Nat.lt_of_succ_lt_succ hi
      have hi2' :
          i < (assignStack cfg cs x
            (yc + half c.info.height + half c.info.height
              + (cfg.verticalSpacing : Int))).length := by
        rw [assignStack_length]
        exact hi'
      simp only [assignStack, List.get]
      rw [ih x
        (yc + half c.info.height + half c.info.height
          + (cfg.verticalSpacing : Int)) i hi' hi2']
      have hsh : stackShift cfg (c :: cs) (i + 1)
          = 2 * half c.info.height + (cfg.verticalSpacing : Int)
            + stackShift cfg cs i := by
        simp [stackShift, List.take_succ_cons]
        try ring
      rw [hsh]
      ring_nf

theorem assignRow_map_subtreeWidth (cfg : LayoutConfig) :
    ∀ (l : List MNode) (cx py : Int) (ph : Nat),
      (assignRow cfg l cx py ph).map (fun c => c.info.subtreeWidth)
        = l.map (fun c => c.info.subtreeWidth) := by
  intro l
  induction l with
  | nil => intro cx py ph; rfl
  | cons c cs ih =>
    intro cx py ph
    simp [assignRow, assignPositions_info, ih]

theorem assignStack_map_height (cfg : LayoutConfig) :
    ∀ (l : List MNode) (x yc : Int),
      (assignStack cfg l x yc).map (fun c => c.info.height)
        = l.map (fun c => c.info.height) := by
  intro l
  induction l with
  | nil => intro x yc; rfl
  | cons c cs ih =>
    intro x yc
    simp [assignStack, assignPositions_info, ih]

theorem bandWidth_assignRow (cfg : LayoutConfig) (l : List MNode)
    (cx py : Int) (ph : Nat) :
    bandWidth cfg (assignRow cfg l cx py ph) = bandWidth cfg l := by
  unfold bandWidth
  rw [assignRow_map_subtreeWidth, assignRow_length]

theorem rowShift_assignRow (cfg : LayoutConfig) (l : List MNode)
    (cx py : Int) (ph : Nat) (i : Nat) :
    rowShift cfg (assignRow cfg l cx py ph) i = rowShift cfg l i := by
  unfold rowShift
  rw [List.map_take, List.map_take, assignRow_map_subtreeWidth]

theorem stackShift_eq_heights (cfg : LayoutConfig) (l : List MNode)
    (i : Nat) :
    stackShift cfg l i
      = (((l.map (fun c => c.info.height)).take i).map
          (fun h => 2 * half h + (cfg.verticalSpacing : Int))).sum := by
  unfold stackShift
  rw [← List.map_take, List.map_map]
  rfl

theorem stackShift_assignStack (cfg : LayoutConfig) (l : List MNode)
    (x yc : Int) (i : Nat) :
    stackShift cfg (assignStack cfg l x yc) i = stackShift cfg l i := by
  rw [stackShift_eq_heights, stackShift_eq_heights, assignStack_map_height]

/-- Row-mode placement, proved for every node of a positioned tree: the
`i`-th child of a row-mode parent sits at the accumulated offset from the
left edge of the centered band, half its subtree width further right, and
one spacing below the parent's bottom edge, half its own height further
down. -/
theorem row_placement_master (cfg : LayoutConfig) :
    ∀ M pos, ∀ r ∈ nodesOf (assignPositions cfg M pos),
      r.info.leavesOnly = false →
      ∀ i (hi : i < r.branches.length),
        posX (r.branches.get ⟨i, hi⟩)
          = posX r - half (bandWidth cfg r.branches)
            + rowShift cfg r.branches i
            + half (r.branches.get ⟨i, hi⟩).info.subtreeWidth
        ∧ posY (r.branches.get ⟨i, hi⟩)
          = posY r + half r.info.height + (cfg.verticalSpacing : Int)
            + half (r.branches.get ⟨i, hi⟩).info.height := by
  intro M
  induction M using mnodeInductionOn with
  | h mi mbr ih =>
    intro pos r hr hlo i hi
    by_cases hbr : mbr = []
    · subst hbr
      rw [assign_mk_leaf] at hr
      rcases mem_nodesOf.1 hr with rfl | ⟨c, hc, _⟩
      · exact absurd hi (Nat.not_lt_zero i)
      · cases hc
    · by_cases hml : mi.leavesOnly = true
      · rw [assign_mk_stack cfg mi mbr pos hbr hml] at hr
        rcases mem_nodesOf.1 hr with rfl | ⟨c, hc, hmc⟩
        · exact absurd hlo (by simp [MNode.info, hml])
        · rcases List.mem_iff_get.1 hc with ⟨⟨j, hj⟩, rfl⟩
          have hj' : j < mbr.length := by
            rw [← assignStack_length cfg mbr pos.1
              (pos.2 + half mi.height + (cfg.verticalSpacing : Int))]
            exact hj
          rw [assignStack_get cfg mbr _ _ j hj' hj] at hmc
          exact ih (mbr.get ⟨j, hj'⟩) (List.get_mem mbr j hj') _ r hmc hlo i hi
      · rw [Bool.not_eq_true] at hml
        rw [assign_mk_row cfg mi mbr pos hbr hml] at hr
        rcases mem_nodesOf.1 hr with rfl | ⟨c, hc, hmc⟩
        · have hi0 : i < (assignRow cfg mbr (pos.1 - half (bandWidth cfg mbr))
              pos.2 mi.height).length := hi
          have hi1 : i < mbr.length := by
            rw [← assignRow_length cfg mbr (pos.1 - half (bandWidth cfg mbr))
              pos.2 mi.height]
            exact hi0
          constructor
          · show posX ((assignRow cfg mbr _ _ _).get ⟨i, hi0⟩) = _
            rw [assignRow_get cfg mbr _ _ _ i hi1 hi0, posX_assign]
            show pos.1 - half (bandWidth cfg mbr) + (rowShift cfg mbr i : Int)
                + half (mbr.get ⟨i, hi1⟩).info.subtreeWidth = _
            have hb : bandWidth cfg
                (MNode.branches (MNode.mk { mi with position := some pos }
                  (assignRow cfg mbr (pos.1 - half (bandWidth cfg mbr)) pos.2
                    mi.height))) = bandWidth cfg mbr := by
              show bandWidth cfg (assignRow cfg mbr _ _ _) = _
              rw [bandWidth_assignRow]
            have hs : rowShift cfg
                (MNode.branches (MNode.mk { mi with position := some pos }
                  (assignRow cfg mbr (pos.1 - half (bandWidth cfg mbr)) pos.2
                    mi.height))) i = rowShift cfg mbr i := by
              show rowShift cfg (assignRow cfg mbr _ _ _) i = _
              rw [rowShift_assignRow]
            have hw : ((MNode.branches (MNode.mk { mi with position := some pos }
                  (assignRow cfg mbr (pos.1 - half (bandWidth cfg mbr)) pos.2
                    mi.height))).get ⟨i, hi⟩).info.subtreeWidth
                = (mbr.get ⟨i, hi1⟩).info.subtreeWidth := by
              show ((assignRow cfg mbr _ _ _).get ⟨i, hi0⟩).info.subtreeWidth = _
              rw [assignRow_get cfg mbr _ _ _ i hi1 hi0, assignPositions_info]
            rw [hb, hs, hw]
            have hx : posX (MNode.mk { mi with position := some pos }
                (assignRow cfg mbr (pos.1 - half (bandWidth cfg mbr)) pos.2
                  mi.height)) = pos.1 := by
              simp [posX, MNode.info]
            rw [hx]
          · show posY ((assignRow cfg mbr _ _ _).get ⟨i, hi0⟩) = _
            rw [assignRow_get cfg mbr _ _ _ i hi1 hi0, posY_assign]
            have hh : ((MNode.branches (MNode.mk { mi with position := some pos }
                  (assignRow cfg mbr (pos.1 - half (bandWidth cfg mbr)) pos.2
                    mi.height))).get ⟨i, hi⟩).info.height
                = (mbr.get ⟨i, hi1⟩).info.height := by
              show ((assignRow cfg mbr _ _ _).get ⟨i, hi0⟩).info.height = _
              rw [assignRow_get cfg mbr _ _ _ i hi1 hi0, assignPositions_info]
            rw [hh]
            have hy : posY (MNode.mk { mi with position := some pos }
                (assignRow cfg mbr (pos.1 - half (bandWidth cfg mbr)) pos.2
                  mi.height)) = pos.2 := by
              simp [posY, MNode.info]
            rw [hy]
            rfl
        · rcases List.mem_iff_get.1 hc with ⟨⟨j, hj⟩, rfl⟩
          have hj' : j < mbr.length := by
            rw [← assignRow_length cfg mbr (pos.1 - half (bandWidth cfg mbr))
              pos.2 mi.height]
            exact hj
          rw [assignRow_get cfg mbr _ _ _ j hj' hj] at hmc
          exact ih (mbr.get ⟨j, hj'⟩) (List.get_mem mbr j hj') _ r hmc hlo i hi

/-- Stack-mode placement, proved for every node of a positioned tree: the
`i`-th child of a stack-mode parent shares the parent's x and sits at the
accumulated stack cursor below the parent's bottom edge plus the vertical
spacing, half its own height further down. -/
theorem stack_placement_master (cfg : LayoutConfig) :
    ∀ M pos, ∀ r ∈ nodesOf (assignPositions cfg M pos),
      r.info.leavesOnly = true →
      ∀ i (hi : i < r.branches.length),
        posX (r.branches.get ⟨i, hi⟩) = posX r
        ∧ posY (r.branches.get ⟨i, hi⟩)
          = posY r + half r.info.height + (cfg.verticalSpacing : Int)
            + stackShift cfg r.branches i
            + half (r.branches.get ⟨i, hi⟩).info.height := by
  intro M
  induction M using mnodeInductionOn with
  | h mi mbr ih =>
    intro pos r hr hlo i hi
    by_cases hbr : mbr = []
    · subst hbr
      rw [assign_mk_leaf] at hr
      rcases mem_nodesOf.1 hr with rfl | ⟨c, hc, _⟩
      · exact absurd hi (Nat.not_lt_zero i)
      · cases hc
    · by_cases hml : mi.leavesOnly = true
      · rw [assign_mk_stack cfg mi mbr pos hbr hml] at hr
        rcases mem_nodesOf.1 hr with rfl | ⟨c, hc, hmc⟩
        · have hi0 : i < (assignStack cfg mbr pos.1
              (pos.2 + half mi.height + (cfg.verticalSpacing : Int))).length := hi
          have hi1 : i < mbr.length := by
            rw [← assignStack_length cfg mbr pos.1
              (pos.2 + half mi.height + (cfg.verticalSpacing : Int))]
            exact hi0
          constructor
          · show posX ((assignStack cfg mbr _ _).get ⟨i, hi0⟩) = _
            rw [assignStack_get cfg mbr _ _ i hi1 hi0, posX_assign]
            have hx : posX (MNode.mk { mi with position := some pos }
                (assignStack cfg mbr pos.1
                  (pos.2 + half mi.height + (cfg.verticalSpacing : Int))))
                = pos.1 := by
              simp [posX, MNode.info]
            rw [hx]
          · show posY ((assignStack cfg mbr _ _).get ⟨i, hi0⟩) = _
            rw [assignStack_get cfg mbr _ _ i hi1 hi0, posY_assign]
            have hss : stackShift cfg
                (MNode.branches (MNode.mk { mi with position := some pos }
                  (assignStack cfg mbr pos.1
                    (pos.2 + half mi.height + (cfg.verticalSpacing : Int))))) i
                = stackShift cfg mbr i := by
              show stackShift cfg (assignStack cfg mbr _ _) i = _
              rw [stackShift_assignStack]
            have hh : ((MNode.branches (MNode.mk { mi with position := some pos }
                  (assignStack cfg mbr pos.1
                    (pos.2 + half mi.height
                      + (cfg.verticalSpacing : Int))))).get ⟨i, hi⟩).info.height
                = (mbr.get ⟨i, hi1⟩).info.height := by
              show ((assignStack cfg mbr _ _).get ⟨i, hi0⟩).info.height = _
              rw [assignStack_get cfg mbr _ _ i hi1 hi0, assignPositions_info]
            rw [hss, hh]
            have hy : posY (MNode.mk { mi with position := some pos }
                (assignStack cfg mbr pos.1
                  (pos.2 + half mi.height + (cfg.verticalSpacing : Int))))
                = pos.2 := by
              simp [posY, MNode.info]
            rw [hy]
            show pos.2 + half mi.height + (cfg.verticalSpacing : Int)
                + stackShift cfg mbr i + half (mbr.get ⟨i, hi1⟩).info.height
              = pos.2 + half (MNode.info (MNode.mk { mi with position := some pos }
                    (assignStack cfg mbr pos.1 (pos.2 + half mi.height
                      + (cfg.verticalSpacing : Int))))).height
                + (cfg.verticalSpacing : Int) + stackShift cfg mbr i
                + half (mbr.get ⟨i, hi1⟩).info.height
            rfl
        · rcases List.mem_iff_get.1 hc with ⟨⟨j, hj⟩, rfl⟩
          have hj' : j < mbr.length := by
            rw [← assignStack_length cfg mbr pos.1
              (pos.2 + half mi.height + (cfg.verticalSpacing : Int))]
            exact hj
          rw [assignStack_get cfg mbr _ _ j hj' hj] at hmc
          exact ih (mbr.get ⟨j, hj'⟩) (List.get_mem mbr j hj') _ r hmc hlo i hi
      · rw [Bool.not_eq_true] at hml
        rw [assign_mk_row cfg mi mbr pos hbr hml] at hr
        rcases mem_nodesOf.1 hr with rfl | ⟨c, hc, hmc⟩
        · exact absurd hlo (by simp [MNode.info, hml])
        · rcases List.mem_iff_get.1 hc with ⟨⟨j, hj⟩, rfl⟩
          have hj' : j < mbr.length := by
            rw [← assignRow_length cfg mbr (pos.1 - half (bandWidth cfg mbr))
              pos.2 mi.height]
            exact hj
          rw [assignRow_get cfg mbr _ _ _ j hj' hj] at hmc
          exact ih (mbr.get ⟨j, hj'⟩) (List.get_mem mbr j hj') _ r hmc hlo i hi

theorem nodesOf_trans :
    ∀ X r, r ∈ nodesOf X → ∀ m ∈ nodesOf r, m ∈ nodesOf X := by
  intro X
  induction X using mnodeInductionOn with
  | h i br ih =>
    intro r hr m hm
    rcases mem_nodesOf.1 hr with rfl | ⟨c, hc, hrc⟩
    · exact hm
    · exact mem_nodesOf.2 (Or.inr ⟨c, hc, ih c hc r hrc m hm⟩)

theorem mem_branches_mem_nodesOf {c r : MNode} (hc : c ∈ r.branches) :
    c ∈ nodesOf r := by
  rcases r with ⟨i, br⟩
  exact mem_nodesOf.2 (Or.inr ⟨c, hc, self_mem_nodesOf c⟩)

theorem rowShift_succ (cfg : LayoutConfig) (l : List MNode) (i : Nat)
    (hi : i < l.length) :
    rowShift cfg l (i + 1)
      = rowShift cfg l i + (l.get ⟨i, hi⟩).info.subtreeWidth
        + cfg.horizontalSpacing := by
  unfold rowShift
  rw [List.map_take, List.map_take,
    List.sum_take_succ _ i (by simpa using hi)]
  simp
  ring

theorem rowShift_mono (cfg : LayoutConfig) (l : List MNode) :
    ∀ i j, i ≤ j → j ≤ l.length → rowShift cfg l i ≤ rowShift cfg l j := by
  intro i j hij
  induction j, hij using Nat.le_induction with
  | base => intro _; exact le_refl _
  | succ j hij2 ih =>
    intro hj
    have hj' : j < l.length := hj
    calc rowShift cfg l i ≤ rowShift cfg l j := ih (Nat.le_of_lt hj')
      _ ≤ rowShift cfg l (j + 1) := by
          rw [rowShift_succ cfg l j hj']
          omega

theorem stackShift_succ (cfg : LayoutConfig) (l : List MNode) (i : Nat)
    (hi : i < l.length) :
    stackShift cfg l (i + 1)
      = stackShift cfg l i + 2 * half (l.get ⟨i, hi⟩).info.height
        + (cfg.verticalSpacing : Int) := by
  unfold stackShift
  rw [List.map_take, List.map_take,
    List.sum_take_succ _ i (by simpa using hi)]
  simp
  ring

/-- C3 counterexample: in the positioned three-level row-mode chain
`pChain` the middle node's own height is 9 (odd), and the leaf's y is 26,
while the claimed composition `root.y + root.ownHeight/2 +
verticalSpacing + branch.ownHeight + verticalSpacing + leaf.ownHeight/2`
gives 27: the source advances by `branch.ownHeight // 2` twice (13 → 26),
not by the full `branch.ownHeight`. -/
theorem chain_y_counterexample :
    pChain.info.leavesOnly = false
    ∧ (child0 pChain).info.leavesOnly = false
    ∧ pChain.branches.length = 1
    ∧ (child0 pChain).branches.length = 1
    ∧ (child0 pChain).info.height = 9
    ∧ posY pChain = 0
    ∧ posY (child0 (child0 pChain)) = 26
    ∧ posY pChain + half pChain.info.height + (cfgRow.verticalSpacing : Int)
        + ((child0 pChain).info.height : Int) + (cfgRow.verticalSpacing : Int)
        + half (child0 (child0 pChain)).info.height = 27
    ∧ (26 : Int) ≠ 27 := by
  refine ⟨?_, ?_, ?_, ?_, ?_, ?_, ?_, ?_, ?_⟩ <;> decide

/-- C3 (amended): for every row-mode parent of a positioned tree, the
children are placed inside a band of width `sum(child.subtree_width) +
horizontal_spacing*(n-1)` centered under the parent, each child's center
at the accumulated offset plus half its subtree width, and each child's y
at `parent.y + parent.ownHeight/2 + verticalSpacing + child.ownHeight/2`
(floor halves); consequently in a three-level row-mode chain the leaf's y
is `root.y + root.ownHeight/2 + verticalSpacing + branch.ownHeight/2 +
branch.ownHeight/2 + verticalSpacing + leaf.ownHeight/2`, which equals the
originally claimed value exactly when `branch.ownHeight` is even. -/
theorem row_positions_spec (cfg : LayoutConfig) (M : MNode)
    (pos : Int × Int) :
    (∀ r ∈ nodesOf (assignPositions cfg M pos),
      r.info.leavesOnly = false →
      ∀ i (hi : i < r.branches.length),
        posX (r.branches.get ⟨i, hi⟩)
          = posX r - half (bandWidth cfg r.branches)
            + rowShift cfg r.branches i
            + half (r.branches.get ⟨i, hi⟩).info.subtreeWidth
        ∧ posY (r.branches.get ⟨i, hi⟩)
          = posY r + half r.info.height + (cfg.verticalSpacing : Int)
            + half (r.branches.get ⟨i, hi⟩).info.height)
    ∧ (∀ root, root = assignPositions cfg M pos →
        root.info.leavesOnly = false →
        0 < root.branches.length →
        (child0 root).info.leavesOnly = false →
        0 < (child0 root).branches.length →
        posY (child0 (child0 root))
          = posY root + half root.info.height + (cfg.verticalSpacing : Int)
            + half (child0 root).info.height
            + half (child0 root).info.height + (cfg.verticalSpacing : Int)
            + half (child0 (child0 root)).info.height) := by
  constructor
  · exact fun r hr => row_placement_master cfg M pos r hr
  · intro root hroot hlo h1 hlo2 h2
    have hrm : root ∈ nodesOf (assignPositions cfg M pos) := by
      rw [hroot]
      exact self_mem_nodesOf _
    have hc0 : child0 root = root.branches.get ⟨0, h1⟩ :=
      headI_eq_get root.branches h1
    have hc1 : child0 (child0 root) = (child0 root).branches.get ⟨0, h2⟩ :=
      headI_eq_get (child0 root).branches h2
    obtain ⟨_, hy1⟩ :=
      row_placement_master cfg M pos root hrm hlo 0 h1
    have hcm : child0 root ∈ nodesOf (assignPositions cfg M pos) := by
      refine nodesOf_trans _ root hrm _ ?_
      exact mem_branches_mem_nodesOf (by rw [hc0]; exact List.get_mem _ 0 h1)
    obtain ⟨_, hy2⟩ :=
      row_placement_master cfg M pos (child0 root) hcm hlo2 0 h2
    rw [hc1, hy2]
    have hy1' : posY (child0 root)
        = posY root + half root.info.height + (cfg.verticalSpacing : Int)
          + half (child0 root).info.height := by
      rw [hc0]
      exact hy1
    rw [hy1']

/-- C3 witness: the concrete even-free chain `pChain` instantiates the
amended composition, the leaf's y evaluating to 26. -/
theorem row_positions_spec_witness :
    posY (child0 (child0 pChain))
      = posY pChain + half pChain.info.height + (cfgRow.verticalSpacing : Int)
        + half (child0 pChain).info.height
        + half (child0 pChain).info.height + (cfgRow.verticalSpacing : Int)
        + half (child0 (child0 pChain)).info.height
    ∧ posY (child0 (child0 pChain)) = 26 :=
  ⟨(row_positions_spec cfgRow (measureTree tmW cfgRow tChain) (0, 0)).2
      pChain rfl (by decide) (by decide) (by decide) (by decide),
    by decide⟩

/-- C4: sibling subtrees of a row-mode parent do not overlap after
position assignment: for siblings `i < j`, the right edge of child `i`'s
reserved band is at most the left edge of child `j`'s. -/
theorem row_siblings_disjoint (cfg : LayoutConfig) (M : MNode)
    (pos : Int × Int) (r : MNode)
    (hr : r ∈ nodesOf (assignPositions cfg M pos))
    (hlo : r.info.leavesOnly = false) (i j : Nat) (hij : i < j)
    (hj : j < r.branches.length) :
    posX (r.branches.get ⟨i, Nat.lt_trans hij hj⟩)
      + half (r.branches.get ⟨i, Nat.lt_trans hij hj⟩).info.subtreeWidth
    ≤ posX (r.branches.get ⟨j, hj⟩)
      - half (r.branches.get ⟨j, hj⟩).info.subtreeWidth := by
  have hi : i < r.branches.length := Nat.lt_trans hij hj
  obtain ⟨hxi, _⟩ := row_placement_master cfg M pos r hr hlo i hi
  obtain ⟨hxj, _⟩ := row_placement_master cfg M pos r hr hlo j hj
  rw [hxi, hxj]
  have h1 : rowShift cfg r.branches (i + 1)
      = rowShift cfg r.branches i
        + (r.branches.get ⟨i, hi⟩).info.subtreeWidth
        + cfg.horizontalSpacing := rowShift_succ cfg r.branches i hi
  have h2 : rowShift cfg r.branches (i + 1) ≤ rowShift cfg r.branches j :=
    rowShift_mono cfg r.branches (i + 1) j hij (Nat.le_of_lt hj)
  simp only [half]
  omega

/-- C4 witness: the two positioned row children of `pTwoRow`. -/
theorem row_siblings_disjoint_witness :
    pTwoRow.info.leavesOnly = false
    ∧ posX (pTwoRow.branches.get ⟨0, by decide⟩)
        + half (pTwoRow.branches.get ⟨0, by decide⟩).info.subtreeWidth
      ≤ posX (pTwoRow.branches.get ⟨1, by decide⟩)
        - half (pTwoRow.branches.get ⟨1, by decide⟩).info.subtreeWidth :=
  ⟨by decide,
    row_siblings_disjoint cfgRow mTwoRow (0, 0) pTwoRow
      (List.Mem.head _) (by decide) 0 1 (by decide) (by decide)⟩

/-- C5: for every stack-mode parent of a positioned tree, every child
shares the parent's x; the first child's y is `parent.y +
parent.ownHeight/2 + verticalSpacing + child.ownHeight/2`, each
subsequent child's y is the previous child's y plus half the previous
height, the vertical spacing and half its own height; consecutive
children therefore do not overlap vertically. -/
theorem stack_positions_spec (cfg : LayoutConfig) (M : MNode)
    (pos : Int × Int) (r : MNode)
    (hr : r ∈ nodesOf (assignPositions cfg M pos))
    (hlo : r.info.leavesOnly = true) :
    (∀ i (hi : i < r.branches.length),
      posX (r.branches.get ⟨i, hi⟩) = posX r)
    ∧ (∀ h0 : 0 < r.branches.length,
        posY (r.branches.get ⟨0, h0⟩)
          = posY r + half r.info.height + (cfg.verticalSpacing : Int)
            + half (r.branches.get ⟨0, h0⟩).info.height)
    ∧ (∀ i (hi : i + 1 < r.branches.length),
        posY (r.branches.get ⟨i + 1, hi⟩)
          = posY (r.branches.get ⟨i, Nat.lt_of_succ_lt hi⟩)
            + half (r.branches.get ⟨i, Nat.lt_of_succ_lt hi⟩).info.height
            + (cfg.verticalSpacing : Int)
            + half (r.branches.get ⟨i + 1, hi⟩).info.height)
    ∧ (∀ i (hi : i + 1 < r.branches.length),
        posY (r.branches.get ⟨i, Nat.lt_of_succ_lt hi⟩)
            + half (r.branches.get ⟨i, Nat.lt_of_succ_lt hi⟩).info.height
            + (cfg.verticalSpacing : Int)
          ≤ posY (r.branches.get ⟨i + 1, hi⟩)
            - half (r.branches.get ⟨i + 1, hi⟩).info.height) := by
  have hmaster := stack_placement_master cfg M pos r hr hlo
  refine ⟨?_, ?_, ?_, ?_⟩
  · intro i hi
    exact (hmaster i hi).1
  · intro h0
    obtain ⟨_, hy⟩ := hmaster 0 h0
    rw [hy]
    simp [stackShift]
  · intro i hi
    obtain ⟨_, hyi⟩ := hmaster i (Nat.lt_of_succ_lt hi)
    obtain ⟨_, hyi1⟩ := hmaster (i + 1) hi
    rw [hyi, hyi1,
      stackShift_succ cfg r.branches i (Nat.lt_of_succ_lt hi)]
    ring
  · intro i hi
    obtain ⟨_, hyi⟩ := hmaster i (Nat.lt_of_succ_lt hi)
    obtain ⟨_, hyi1⟩ := hmaster (i + 1) hi
    rw [hyi, hyi1,
      stackShift_succ cfg r.branches i (Nat.lt_of_succ_lt hi)]
    omega

/-- C5 witness: the two positioned stack children of `pTwoStack` (root at
the origin; children at x = 0, y = 13 and y = 27). -/
theorem stack_positions_spec_witness :
    pTwoStack.info.leavesOnly = true
    ∧ posX (pTwoStack.branches.get ⟨1, by decide⟩) = posX pTwoStack
    ∧ posY (pTwoStack.branches.get ⟨0, by decide⟩) = 13
    ∧ posY (pTwoStack.branches.get ⟨1, by decide⟩) = 27
    ∧ (∀ h0 : 0 < pTwoStack.branches.length,
        posY (pTwoStack.branches.get ⟨0, h0⟩)
          = posY pTwoStack + half pTwoStack.info.height
            + (cfgStack.verticalSpacing : Int)
            + half (pTwoStack.branches.get ⟨0, h0⟩).info.height) :=
  ⟨by decide,
    (stack_positions_spec cfgStack (applyVstackAlignment cfgStack mTwoStack)
      (0, 0) pTwoStack (List.Mem.head _) (by decide)).1 1 (by decide),
    by decide, by decide,
    (stack_positions_spec cfgStack (applyVstackAlignment cfgStack mTwoStack)
      (0, 0) pTwoStack (List.Mem.head _) (by decide)).2.1⟩

/-! ### The Stack Aligner -/

theorem align_mk_leaf (cfg : LayoutConfig) (i : MInfo) :
    applyVstackAlignment cfg (.mk i [])
      = .mk { i with subtreeWidth := i.width, subtreeHeight := i.height }
          [] := rfl

theorem align_mk_stack (cfg : LayoutConfig) (i : MInfo) (br : List MNode)
    (hbr : br ≠ []) (hlv : (i.leavesOnly && cfg.alignVStack) = true) :
    applyVstackAlignment cfg (.mk i br)
      = .mk
          { i with
            width := stackTarget cfg i (alignForest cfg br)
            subtreeWidth := stackTarget cfg i (alignForest cfg br)
            subtreeHeight := i.height + cfg.verticalSpacing
              + ((((alignForest cfg br).map
                    (overwriteStackChild
                      (stackTarget cfg i (alignForest cfg br)))).map
                    (fun c => c.info.height)).sum
                  + cfg.verticalSpacing
                      * (((alignForest cfg br).map
                          (overwriteStackChild
                            (stackTarget cfg i (alignForest cfg br)))).length
                        - 1)) }
          ((alignForest cfg br).map
            (overwriteStackChild (stackTarget cfg i (alignForest cfg br)))) := by
  have hne : (alignForest cfg br).isEmpty = false := by
    rw [alignForest_eq_map]
    simp [List.isEmpty_iff]
    exact hbr
  simp only [applyVstackAlignment, hne, hlv]
  simp

theorem align_mk_row (cfg : LayoutConfig) (i : MInfo) (br : List MNode)
    (hbr : br ≠ []) (hlv : (i.leavesOnly && cfg.alignVStack) = false) :
    applyVstackAlignment cfg (.mk i br)
      = .mk
          { i with
            subtreeWidth := max i.width
              (((alignForest cfg br).map (fun c => c.info.subtreeWidth)).sum
                + cfg.horizontalSpacing * ((alignForest cfg br).length - 1))
            subtreeHeight := i.height + cfg.verticalSpacing
              + maxNat ((alignForest cfg br).map
                  (fun c => c.info.subtreeHeight)) }
          (alignForest cfg br) := by
  have hne : (alignForest cfg br).isEmpty = false := by
    rw [alignForest_eq_map]
    simp [List.isEmpty_iff]
    exact hbr
  simp only [applyVstackAlignment, hne, hlv]
  simp

theorem align_info_height (cfg : LayoutConfig) (m : MNode) :
    (applyVstackAlignment cfg m).info.height = m.info.height := by
  rcases m with ⟨i, br⟩
  simp only [applyVstackAlignment]
  split
  · rfl
  · split <;> rfl

theorem align_info_leavesOnly (cfg : LayoutConfig) (m : MNode) :
    (applyVstackAlignment cfg m).info.leavesOnly = m.info.leavesOnly := by
  rcases m with ⟨i, br⟩
  simp only [applyVstackAlignment]
  split
  · rfl
  · split <;> rfl

theorem align_of_leaf (cfg : LayoutConfig) {c : MNode}
    (h : c.branches = []) :
    applyVstackAlignment cfg c
      = .mk
          { c.info with
            subtreeWidth := c.info.width
            subtreeHeight := c.info.height }
          [] := by
  rcases c with ⟨i, br⟩
  have : br = [] := h
  subst this
  exact align_mk_leaf cfg i

theorem align_of_leaf_width (cfg : LayoutConfig) {c : MNode}
    (h : c.branches = []) :
    (applyVstackAlignment cfg c).info.width = c.info.width := by
  rw [align_of_leaf cfg h]
  rfl

theorem mem_pairedForest_map {f : MNode → MNode} {p : MNode × MNode} :
    ∀ {l : List MNode},
      p ∈ pairedForest l (l.map f) ↔ ∃ c ∈ l, p ∈ pairedNodes c (f c) := by
  intro l
  induction l with
  | nil => simp [pairedForest]
  | cons c cs ih => simp [pairedForest, ih]

theorem pairedNodes_mk (i j : MInfo) (br cr : List MNode) :
    pairedNodes (.mk i br) (.mk j cr)
      = (MNode.mk i br, MNode.mk j cr) :: pairedForest br cr := rfl

theorem measure_stackConsistent (tm : String → Nat × Nat)
    (cfg : LayoutConfig) (t : TNode) :
    StackConsistent (measureTree tm cfg t) := by
  intro r hr hlo c hc
  obtain ⟨t2, rfl⟩ := mem_measure_exists tm cfg t r hr
  obtain ⟨a, b, br⟩ := t2
  rw [measureTree_mk] at hlo hc
  rw [combineMeasured_leavesOnly] at hlo
  rw [combineMeasured_branches] at hc
  by_cases hne : (br.map (measureTree tm cfg)).isEmpty
  · rw [if_pos hne] at hlo
    cases hlo
  · rw [if_neg hne] at hlo
    have := (List.all_eq_true.1 (Bool.and_elim_right hlo)) c hc
    rwa [← List.isEmpty_iff]

theorem stackConsistent_of_mem {M r : MNode} (h : StackConsistent M)
    (hr : r ∈ nodesOf M) : StackConsistent r :=
  fun s hs => h s (nodesOf_trans M r hr s hs)

theorem foldl_max_all_eq :
    ∀ (xs : List Nat) (a : Nat), (∀ x ∈ xs, x = a) → xs.foldl max a = a := by
  intro xs
  induction xs with
  | nil => intro a _; rfl
  | cons x xs ih =>
    intro a hall
    have hx : x = a := hall x (List.mem_cons_self x xs)
    simp only [List.foldl, hx, max_self]
    exact ih a (fun y hy => hall y (List.mem_cons_of_mem x hy))

theorem maxNat_all_eq {L : List Nat} {a : Nat} (hne : L ≠ [])
    (hall : ∀ x ∈ L, x = a) : maxNat L = a := by
  cases L with
  | nil => cases hne rfl
  | cons x xs =>
    have hx : x = a := hall x (List.mem_cons_self x xs)
    unfold maxNat
    simp only [List.foldl, Nat.zero_max, hx]
    exact foldl_max_all_eq xs a (fun y hy => hall y (List.mem_cons_of_mem x hy))

/-- The C6 contract at one paired node: `pre` is the node before the
aligner pass, `post` the corresponding node after it. -/
theorem align_spec_master (cfg : LayoutConfig)
    (halign : cfg.alignVStack = true) :
    ∀ M, StackConsistent M →
      ∀ p ∈ pairedNodes M (applyVstackAlignment cfg M),
      (p.1.info.leavesOnly = true → p.1.branches ≠ [] →
        p.2.info.width
          = max p.1.info.width
              (maxNat (p.1.branches.map (fun c => c.info.width)))
        ∧ p.2.info.subtreeWidth = p.2.info.width
        ∧ p.2.info.subtreeHeight
          = p.2.info.height + cfg.verticalSpacing
            + ((p.2.branches.map (fun c => c.info.height)).sum
                + cfg.verticalSpacing * (p.2.branches.length - 1))
        ∧ p.2.branches.length = p.1.branches.length
        ∧ ∀ c ∈ p.2.branches,
            c.info.width = p.2.info.width
            ∧ c.info.subtreeWidth = p.2.info.width
            ∧ c.info.subtreeHeight = c.info.height)
      ∧ (p.1.info.leavesOnly = false → p.1.branches ≠ [] →
          p.2.info.subtreeWidth
            = max p.2.info.width (bandWidth cfg p.2.branches)
          ∧ p.2.info.subtreeHeight
            = p.2.info.height + cfg.verticalSpacing
              + maxNat (p.2.branches.map (fun c => c.info.subtreeHeight)))
      ∧ (p.1.branches = [] →
          p.2.info.subtreeWidth = p.2.info.width
          ∧ p.2.info.subtreeHeight = p.2.info.height) := by
  intro M
  induction M using mnodeInductionOn with
  | h i br ih =>
    intro hcons p hp
    by_cases hbr : br = []
    · subst hbr
      rw [align_mk_leaf, pairedNodes_mk] at hp
      rcases List.mem_cons.1 hp with rfl | hin
      · exact ⟨fun _ hne => absurd rfl hne, fun _ hne => absurd rfl hne,
          fun _ => ⟨rfl, rfl⟩⟩
      · exact absurd hin (List.not_mem_nil p)
    · by_cases hlv : (i.leavesOnly && cfg.alignVStack) = true
      · have hlo : i.leavesOnly = true := by
          simp at hlv
          exact hlv.1
        have hleaves : ∀ c ∈ br, c.branches = [] :=
          hcons (.mk i br) (self_mem_nodesOf _) hlo
        rw [align_mk_stack cfg i br hbr hlv, pairedNodes_mk] at hp
        have hwidths :
            (alignForest cfg br).map (fun c => c.info.width)
              = br.map (fun c => c.info.width) := by
          rw [alignForest_eq_map, List.map_map]
          exact List.map_congr_left
            (fun c hc => align_of_leaf_width cfg (hleaves c hc))
        have hTval : stackTarget cfg i (alignForest cfg br)
            = max i.width (maxNat (br.map (fun c => c.info.width))) := by
          rw [stackTarget, hwidths]
        rcases List.mem_cons.1 hp with rfl | hin
        · refine ⟨fun _ _ => ?_,
            fun hlo2 _ => absurd hlo2 (by simp [MNode.info, hlo]),
            fun h0 => absurd h0 hbr⟩
          refine ⟨hTval, rfl, rfl, ?_, ?_⟩
          · show ((alignForest cfg br).map _).length = br.length
            rw [List.length_map, alignForest_eq_map, List.length_map]
          · intro c hc
            rcases List.mem_map.1 hc with ⟨d, _, rfl⟩
            exact ⟨rfl, rfl, rfl⟩
        · have hmap : (alignForest cfg br).map
              (overwriteStackChild (stackTarget cfg i (alignForest cfg br)))
              = br.map (fun c =>
                  overwriteStackChild
                    (stackTarget cfg i (alignForest cfg br))
                    (applyVstackAlignment cfg c)) := by
            conv =>
              lhs
              rw [alignForest_eq_map, List.map_map]
            rw [← alignForest_eq_map]
            rfl
          rw [hmap] at hin
          obtain ⟨c, hc, hpc⟩ := mem_pairedForest_map.1 hin
          have hcl : c.branches = [] := hleaves c hc
          rcases c with ⟨ci, cbr⟩
          have hcbr : cbr = [] := hcl
          subst hcbr
          rw [align_mk_leaf] at hpc
          rcases List.mem_cons.1 hpc with rfl | hin3
          · exact ⟨fun _ hne => absurd rfl hne, fun _ hne => absurd rfl hne,
              fun _ => ⟨rfl, rfl⟩⟩
          · exact absurd hin3 (List.not_mem_nil p)
      · rw [Bool.not_eq_true] at hlv
        have hlo : i.leavesOnly = false := by
          rcases Bool.and_eq_false_iff.1 hlv with h | h
          · exact h
          · rw [halign] at h
            cases h
        rw [align_mk_row cfg i br hbr hlv, pairedNodes_mk] at hp
        rcases List.mem_cons.1 hp with rfl | hin
        · refine ⟨fun h _ => absurd h (by simp [MNode.info, hlo]),
            fun _ _ => ⟨?_, ?_⟩, fun h0 => absurd h0 hbr⟩
          · rfl
          · rfl
        · obtain ⟨c, hc, hpc⟩ := mem_pairedForest_map.1
            (by rw [alignForest_eq_map] at hin; exact hin)
          exact ih c hc
            (stackConsistent_of_mem hcons (mem_branches_mem_nodesOf hc)) p hpc

/-- C6: one run of `_apply_vstack_alignment` on a measured tree equalises
each `leaves_only` node and its direct children at the width
`max(pre-pass parent width, max pre-pass child width)`, sets each such
child's `subtree_width` to that target and its `subtree_height` to its own
height, and recomputes `subtree_width`/`subtree_height` bottom-up for
every node, non-stack nodes by the row-layout formulas of the Subtree
Measurer and leaves by `subtree = own`.  Stated over corresponding
(pre-pass, post-pass) node pairs. -/
theorem align_spec (tm : String → Nat × Nat) (cfg : LayoutConfig)
    (t : TNode) (halign : cfg.alignVStack = true) (p : MNode × MNode)
    (hp : p ∈ pairedNodes (measureTree tm cfg t)
      (applyVstackAlignment cfg (measureTree tm cfg t))) :
    (p.1.info.leavesOnly = true → p.1.branches ≠ [] →
      p.2.info.width
        = max p.1.info.width
            (maxNat (p.1.branches.map (fun c => c.info.width)))
      ∧ p.2.info.subtreeWidth = p.2.info.width
      ∧ p.2.info.subtreeHeight
        = p.2.info.height + cfg.verticalSpacing
          + ((p.2.branches.map (fun c => c.info.height)).sum
              + cfg.verticalSpacing * (p.2.branches.length - 1))
      ∧ p.2.branches.length = p.1.branches.length
      ∧ ∀ c ∈ p.2.branches,
          c.info.width = p.2.info.width
          ∧ c.info.subtreeWidth = p.2.info.width
          ∧ c.info.subtreeHeight = c.info.height)
    ∧ (p.1.info.leavesOnly = false → p.1.branches ≠ [] →
        p.2.info.subtreeWidth
          = max p.2.info.width (bandWidth cfg p.2.branches)
        ∧ p.2.info.subtreeHeight
          = p.2.info.height + cfg.verticalSpacing
            + maxNat (p.2.branches.map (fun c => c.info.subtreeHeight)))
    ∧ (p.1.branches = [] →
        p.2.info.subtreeWidth = p.2.info.width
        ∧ p.2.info.subtreeHeight = p.2.info.height) :=
  align_spec_master cfg halign (measureTree tm cfg t)
    (measure_stackConsistent tm cfg t) p hp

/-- C6 witness: the root pair of the measured/aligned two-child stack
tree; the equalised width evaluates to 5. -/
theorem align_spec_witness :
    mTwoStack.info.leavesOnly = true
    ∧ (applyVstackAlignment cfgStack mTwoStack).info.width = 5
    ∧ ((mTwoStack.info.leavesOnly = true → mTwoStack.branches ≠ [] →
        (applyVstackAlignment cfgStack mTwoStack).info.width
          = max mTwoStack.info.width
              (maxNat (mTwoStack.branches.map (fun c => c.info.width)))
        ∧ (applyVstackAlignment cfgStack mTwoStack).info.subtreeWidth
          = (applyVstackAlignment cfgStack mTwoStack).info.width
        ∧ (applyVstackAlignment cfgStack mTwoStack).info.subtreeHeight
          = (applyVstackAlignment cfgStack mTwoStack).info.height
              + cfgStack.verticalSpacing
              + (((applyVstackAlignment cfgStack mTwoStack).branches.map
                    (fun c => c.info.height)).sum
                  + cfgStack.verticalSpacing
                      * ((applyVstackAlignment cfgStack
                          mTwoStack).branches.length - 1))
        ∧ (applyVstackAlignment cfgStack mTwoStack).branches.length
          = mTwoStack.branches.length
        ∧ ∀ c ∈ (applyVstackAlignment cfgStack mTwoStack).branches,
            c.info.width
              = (applyVstackAlignment cfgStack mTwoStack).info.width
            ∧ c.info.subtreeWidth
              = (applyVstackAlignment cfgStack mTwoStack).info.width
            ∧ c.info.subtreeHeight = c.info.height)) :=
  ⟨by decide, by decide,
    ((align_spec tmW cfgStack tTwo rfl
      (mTwoStack, applyVstackAlignment cfgStack mTwoStack)
      (List.Mem.head _)).1)⟩

theorem ow_fixed {w : Nat} {d : MNode}
    (h1 : d.info.width = w) (h2 : d.info.subtreeWidth = w)
    (h3 : d.info.subtreeHeight = d.info.height) :
    overwriteStackChild w d = d := by
  rcases d with ⟨di, dbr⟩
  rcases di with ⟨t, s, dw, dh, dth, dbh, dsw, dsh, dpos, dlo⟩
  simp [MNode.info] at h1 h2 h3
  subst h1
  subst h2
  subst h3
  rfl

theorem align_fixed_leaf (cfg : LayoutConfig) {d : MNode}
    (hb : d.branches = []) (h2 : d.info.subtreeWidth = d.info.width)
    (h3 : d.info.subtreeHeight = d.info.height) :
    applyVstackAlignment cfg d = d := by
  rcases d with ⟨di, dbr⟩
  have hb2 : dbr = [] := hb
  subst hb2
  rcases di with ⟨t, s, dw, dh, dth, dbh, dsw, dsh, dpos, dlo⟩
  simp [MNode.info] at h2 h3
  subst h2
  subst h3
  rfl

/-- Idempotence of the aligner, for any measured tree whose `leaves_only`
marks are consistent with its shape. -/
theorem align_idem_master (cfg : LayoutConfig) :
    ∀ M, StackConsistent M →
      applyVstackAlignment cfg (applyVstackAlignment cfg M)
        = applyVstackAlignment cfg M := by
  intro M
  induction M using mnodeInductionOn with
  | h i br ih =>
    intro hcons
    by_cases hbr : br = []
    · subst hbr
      rfl
    · by_cases hlv : (i.leavesOnly && cfg.alignVStack) = true
      · have hlo : i.leavesOnly = true := by
          simp at hlv
          exact hlv.1
        have hleaves : ∀ c ∈ br, c.branches = [] :=
          hcons (.mk i br) (self_mem_nodesOf _) hlo
        rw [align_mk_stack cfg i br hbr hlv]
        set T := stackTarget cfg i (alignForest cfg br) with hT
        set BR3 := (alignForest cfg br).map (overwriteStackChild T) with hB3
        have hBR3fields : ∀ d ∈ BR3,
            d.branches = [] ∧ d.info.width = T
            ∧ d.info.subtreeWidth = T
            ∧ d.info.subtreeHeight = d.info.height := by
          intro d hd
          rw [hB3] at hd
          rcases List.mem_map.1 hd with ⟨c2, hc2, rfl⟩
          refine ⟨?_, rfl, rfl, rfl⟩
          rw [alignForest_eq_map] at hc2
          rcases List.mem_map.1 hc2 with ⟨c, hc, rfl⟩
          show (applyVstackAlignment cfg c).branches = []
          rw [align_of_leaf cfg (hleaves c hc)]
          rfl
        have hBR3ne : BR3 ≠ [] := by
          rw [hB3, alignForest_eq_map]
          simp
          exact hbr
        have hfix : ∀ d ∈ BR3, overwriteStackChild T d = d := by
          intro d hd
          obtain ⟨_, h1, h2, h3⟩ := hBR3fields d hd
          exact ow_fixed h1 h2 h3
        have hforest : alignForest cfg BR3 = BR3 := by
          rw [alignForest_eq_map]
          have hall : ∀ d ∈ BR3, applyVstackAlignment cfg d = id d := by
            intro d hd
            obtain ⟨hb, h1, h2, h3⟩ := hBR3fields d hd
            exact align_fixed_leaf cfg hb (h2.trans h1.symm) h3
          rw [List.map_congr_left hall, List.map_id]
        have hmax : maxNat (BR3.map (fun c => c.info.width)) = T := by
          refine maxNat_all_eq ?_ ?_
          · simp [hBR3ne]
          · intro x hx
            rcases List.mem_map.1 hx with ⟨d, hd, rfl⟩
            exact (hBR3fields d hd).2.1
        rw [align_mk_stack cfg
          { i with
            width := T
            subtreeWidth := T
            subtreeHeight := i.height + cfg.verticalSpacing
              + ((BR3.map (fun c => c.info.height)).sum
                  + cfg.verticalSpacing * (BR3.length - 1)) }
          BR3 hBR3ne hlv]
        rw [hforest]
        have hT2 : stackTarget cfg
            { i with
              width := T
              subtreeWidth := T
              subtreeHeight := i.height + cfg.verticalSpacing
                + ((BR3.map (fun c => c.info.height)).sum
                    + cfg.verticalSpacing * (BR3.length - 1)) }
            BR3 = T := by
          rw [stackTarget]
          show max T (maxNat (BR3.map (fun c => c.info.width))) = T
          rw [hmax, max_self]
        rw [hT2]
        have hmapid : BR3.map (overwriteStackChild T) = BR3 := by
          have hall : ∀ d ∈ BR3, overwriteStackChild T d = id d := hfix
          rw [List.map_congr_left hall, List.map_id]
        rw [hmapid]
      · rw [Bool.not_eq_true] at hlv
        rw [align_mk_row cfg i br hbr hlv]
        have hne2 : alignForest cfg br ≠ [] := by
          rw [alignForest_eq_map]
          simp
          exact hbr
        have hforest2 : alignForest cfg (alignForest cfg br)
            = alignForest cfg br := by
          conv =>
            lhs
            rw [alignForest_eq_map, alignForest_eq_map, List.map_map]
          rw [alignForest_eq_map]
          refine List.map_congr_left ?_
          intro c hc
          show applyVstackAlignment cfg (applyVstackAlignment cfg c)
            = applyVstackAlignment cfg c
          exact ih c hc
            (stackConsistent_of_mem hcons (mem_branches_mem_nodesOf hc))
        rw [align_mk_row cfg
          { i with
            subtreeWidth := max i.width
              (((alignForest cfg br).map (fun c => c.info.subtreeWidth)).sum
                + cfg.horizontalSpacing * ((alignForest cfg br).length - 1))
            subtreeHeight := i.height + cfg.verticalSpacing
              + maxNat ((alignForest cfg br).map
                  (fun c => c.info.subtreeHeight)) }
          (alignForest cfg br) hne2 hlv]
        rw [hforest2]

/-- C7: the Stack Aligner is idempotent on every measured tree: a second
run of `_apply_vstack_alignment` returns the aligned tree unchanged (in
particular no node's `width`, `height`, `subtree_width` or
`subtree_height` changes). -/
theorem align_idempotent (tm : String → Nat × Nat) (cfg : LayoutConfig)
    (t : TNode) :
    applyVstackAlignment cfg (applyVstackAlignment cfg (measureTree tm cfg t))
      = applyVstackAlignment cfg (measureTree tm cfg t) :=
  align_idem_master cfg (measureTree tm cfg t)
    (measure_stackConsistent tm cfg t)

/-! ### The Node Measurer width (C9) -/

/-- C9 counterexample: `_measure_node` applies no minimum-width floor.  On
a node whose longest rendered line is 1 pixel wide (margins 1), the code
returns width 3; the spec's floored variant with `minNodeWidth = 50`
would return 50.  No `minNodeWidth` (or `min_node_width`) configuration
key exists anywhere in this snapshot. -/
theorem node_width_floor_counterexample :
    (measureNode tmW cfgRow "a" "b").1 = 3
    ∧ (measureNodeFloored tmW cfgRow 50 "a" "b").1 = 50
    ∧ measureNode tmW cfgRow "a" "b"
        ≠ measureNodeFloored tmW cfgRow 50 "a" "b" :=
  ⟨by decide, by decide, by decide⟩

/-- C9 (amended): the Node Measurer returns `ownWidth = max rendered line
width over all title and subtitle lines + 2 * horizontal margin`, with no
minimum-width floor: only the zoom-scaled-padding variant exists in this
code. -/
theorem measureNode_no_floor (tm : String → Nat × Nat) (cfg : LayoutConfig)
    (title subtitle : String) :
    (measureNode tm cfg title subtitle).1
      = maxNat ((splitLines title ++ splitLines subtitle).map
          (fun line => (tm line).1))
        + 2 * cfg.nodeMarginX := by
  simp only [measureNode, List.map_append, List.map_map]
  rw [Nat.mul_comm]
  rfl

/-! ### Fail-fast on missing keys (C10) -/

theorem forestE_error (tm : String → Nat × Nat) (cfg : LayoutConfig) :
    ∀ l : List RawNode,
      (∀ c ∈ l, hasMissingKey c = true →
        ∃ e, measureTreeE tm cfg c = .error e) →
      forestHasMissingKey l = true →
      ∃ e, measureForestE tm cfg l = .error e := by
  intro l
  induction l with
  | nil => intro _ h; cases h
  | cons c cs ih =>
    intro hel h
    by_cases hc : hasMissingKey c = true
    · obtain ⟨e, he⟩ := hel c (List.mem_cons_self c cs) hc
      exact ⟨e, by simp [measureForestE, he]⟩
    · have hcs : forestHasMissingKey cs = true := by
        simp [forestHasMissingKey] at h
        rcases h with h | h
        · exact absurd h hc
        · exact h
      obtain ⟨e, he⟩ := ih (fun d hd => hel d (List.mem_cons_of_mem c hd)) hcs
      cases hm : measureTreeE tm cfg c with
      | error e2 => exact ⟨e2, by simp [measureForestE, hm]⟩
      | ok m => exact ⟨e, by simp [measureForestE, hm, he]⟩

theorem measureTreeE_error (tm : String → Nat × Nat) (cfg : LayoutConfig) :
    ∀ r : RawNode, hasMissingKey r = true →
      ∃ e, measureTreeE tm cfg r = .error e := by
  intro r
  induction r using rawInductionOn with
  | h a b br ih =>
    intro hk
    cases a with
    | none => exact ⟨"KeyError: title", rfl⟩
    | some ta =>
      cases b with
      | none => exact ⟨"KeyError: subtitle", rfl⟩
      | some tb =>
        have hbr : forestHasMissingKey br = true := by
          simp [hasMissingKey] at hk
          exact hk
        obtain ⟨e, he⟩ := forestE_error tm cfg br ih hbr
        exact ⟨e, by simp [measureTreeE, he]⟩

/-- C10: when any node of the input tree is missing its required `title`
or `subtitle` key, `_update_tree_layout` raises (the `KeyError` surfaces
to the caller as an `Except.error`), no partial layout is produced, and
the previously stored measured tree — indeed the whole visualizer state —
is left unchanged. -/
theorem missing_key_fails_fast (tm : String → Nat × Nat)
    (cfg : LayoutConfig) (st : VisState)
    (hbad : hasMissingKey st.tree = true) :
    (∃ e, updateTreeLayout tm cfg st = .error e)
    ∧ runUpdate tm cfg st = st := by
  obtain ⟨e, he⟩ := measureTreeE_error tm cfg st.tree hbad
  refine ⟨⟨e, ?_⟩, ?_⟩
  · simp [updateTreeLayout, he]
  · simp [runUpdate, updateTreeLayout, he]

/-- C10 witness: a concrete state whose root node is missing `subtitle`. -/
theorem missing_key_fails_fast_witness :
    hasMissingKey stBad.tree = true
    ∧ (∃ e, updateTreeLayout tmW cfgRow stBad = .error e)
    ∧ runUpdate tmW cfgRow stBad = stBad :=
  ⟨by decide, (missing_key_fails_fast tmW cfgRow stBad (by decide)).1,
    (missing_key_fails_fast tmW cfgRow stBad (by decide)).2⟩

/-! ### Size invariants (C8) -/

theorem measure_sizeBounds (tm : String → Nat × Nat) (cfg : LayoutConfig)
    (t : TNode) : ∀ m ∈ nodesOf (measureTree tm cfg t), SizeBounds m := by
  intro m hm
  obtain ⟨t2, rfl⟩ := mem_measure_exists tm cfg t m hm
  obtain ⟨a, b, br⟩ := t2
  rw [measureTree_mk]
  by_cases hbr : br = []
  · subst hbr
    obtain ⟨hw, hh⟩ := @combineMeasured_leaf cfg a b (measureNode tm cfg a b)
      (([] : List TNode).map (measureTree tm cfg)) rfl
    refine ⟨?_, ?_, fun _ => ?_⟩
    · rw [hw, combineMeasured_width]
    · rw [hh, combineMeasured_height]
    · rw [hw, hh, combineMeasured_width, combineMeasured_height]
      exact ⟨rfl, rfl⟩
  · have hne : br.map (measureTree tm cfg) ≠ [] := by
      simp [hbr]
    have hbrne :
        (combineMeasured cfg a b (measureNode tm cfg a b)
          (br.map (measureTree tm cfg))).branches ≠ [] := by
      rw [combineMeasured_branches]
      exact hne
    by_cases hlo :
        (combineMeasured cfg a b (measureNode tm cfg a b)
          (br.map (measureTree tm cfg))).info.leavesOnly = true
    · obtain ⟨hw, hh⟩ := combineMeasured_stack hlo
      refine ⟨?_, ?_, fun h => absurd h hbrne⟩
      · rw [hw, combineMeasured_width]
        exact Nat.le_max_left _ _
      · rw [hh, combineMeasured_height]
        omega
    · rw [Bool.not_eq_true] at hlo
      obtain ⟨hw, hh⟩ := combineMeasured_row hne hlo
      refine ⟨?_, ?_, fun h => absurd h hbrne⟩
      · rw [hw, combineMeasured_width]
        exact Nat.le_max_right _ _
      · rw [hh, combineMeasured_height]
        omega

theorem align_sizeBounds (cfg : LayoutConfig) :
    ∀ M, ∀ m ∈ nodesOf (applyVstackAlignment cfg M), SizeBounds m := by
  intro M
  induction M using mnodeInductionOn with
  | h i br ih =>
    intro m hm
    simp only [applyVstackAlignment] at hm
    by_cases hbr : (alignForest cfg br).isEmpty
    · rw [if_pos hbr] at hm
      have hnil : alignForest cfg br = [] := by rwa [List.isEmpty_iff] at hbr
      rw [hnil] at hm
      rcases mem_nodesOf.1 hm with rfl | ⟨c, hc, _⟩
      · exact ⟨le_refl _, le_refl _, fun _ => ⟨rfl, rfl⟩⟩
      · cases hc
    · rw [if_neg hbr] at hm
      have hne : alignForest cfg br ≠ [] := by
        rwa [Ne, ← List.isEmpty_iff]
      by_cases hlv : i.leavesOnly && cfg.alignVStack
      · rw [if_pos hlv] at hm
        rcases mem_nodesOf.1 hm with rfl | ⟨c, hc, hmc⟩
        · refine ⟨?_, ?_, fun h =>
            absurd (show alignForest cfg br = [] by
              simpa [MNode.branches] using h) hne⟩
          · simp [MNode.info]
          · simp [MNode.info]
            omega
        · rcases List.mem_map.1 hc with ⟨d, hd, rfl⟩
          rcases mem_nodesOf.1 (by simpa using hmc) with rfl | ⟨e, he, hme⟩
          · exact ⟨le_refl _, le_refl _, fun _ => ⟨rfl, rfl⟩⟩
          · have hmd : m ∈ nodesOf d := by
              rcases d with ⟨di, dbr⟩
              exact mem_nodesOf.2 (Or.inr ⟨e, (by simpa using he), hme⟩)
            rw [alignForest_eq_map] at hd
            rcases List.mem_map.1 hd with ⟨c0, hc0, rfl⟩
            exact ih c0 hc0 m hmd
      · rw [if_neg hlv] at hm
        rcases mem_nodesOf.1 hm with rfl | ⟨c, hc, hmc⟩
        · refine ⟨?_, ?_, fun h =>
            absurd (show alignForest cfg br = [] by
              simpa [MNode.branches] using h) hne⟩
          · simp [MNode.info]
          · simp [MNode.info]
            omega
        · rw [alignForest_eq_map] at hc
          rcases List.mem_map.1 hc with ⟨c0, hc0, rfl⟩
          exact ih c0 hc0 m hmc

/-- C8: every node, both right after `_measure_tree` and after the
`_apply_vstack_alignment` pass, satisfies `subtree_width >= width` and
`subtree_height >= height`, and every leaf satisfies them with
equality. -/
theorem size_invariants (tm : String → Nat × Nat) (cfg : LayoutConfig)
    (t : TNode) (m : MNode)
    (hm : m ∈ nodesOf (measureTree tm cfg t)
      ∨ m ∈ nodesOf (applyVstackAlignment cfg (measureTree tm cfg t))) :
    m.info.width ≤ m.info.subtreeWidth
    ∧ m.info.height ≤ m.info.subtreeHeight
    ∧ (m.branches = [] →
        m.info.subtreeWidth = m.info.width
        ∧ m.info.subtreeHeight = m.info.height) := by
  rcases hm with hm | hm
  · exact measure_sizeBounds tm cfg t m hm
  · exact align_sizeBounds cfg (measureTree tm cfg t) m hm

/-- C8 witness: the root of the measured stack tree, on both sides of the
aligner. -/
theorem size_invariants_witness :
    mTwoStack.info.width ≤ mTwoStack.info.subtreeWidth
    ∧ mTwoStack.info.height ≤ mTwoStack.info.subtreeHeight
    ∧ (mTwoStack.branches = [] →
        mTwoStack.info.subtreeWidth = mTwoStack.info.width
        ∧ mTwoStack.info.subtreeHeight = mTwoStack.info.height) :=
  size_invariants tmW cfgStack tTwo mTwoStack (Or.inl (List.Mem.head _))

end TreeScaper
